import Mathlib

/-!
Verification of the scalar reverse-mode automatic-differentiation engine
(`autodiff/engine.py`) and the neuron layer built on it (`autodiff/nn.py`).

The mutable Python `Scalar` objects are embedded as an arena: a list of
nodes, where a node's position in the list is its identity (Python object
identity) and a node records its eagerly computed `value` together with the
operation that produced it (which determines both its `_ancestors` set and
its `_backward` closure).  Gradients, the only mutable field, are modelled
as an explicit map from node indices to reals that the backward pass
threads through.  Every operation appends a fresh node at the end of the
arena, so ancestors always have strictly smaller indices than the nodes
they produce — the well-formedness invariant `Wf`.
-/

/-- The operation that produced a node, mirroring which `_backward` closure
`engine.py` installs on the result.  Operands are arena indices; `pow`
additionally carries its numeric (non-node) exponent. -/
inductive Op where
  | leaf : Op
  | add : Nat → Nat → Op
  | mul : Nat → Nat → Op
  | pow : Nat → ℝ → Op
  | tanh : Nat → Op
  | relu : Nat → Op
  | gelu : Nat → Op

/-- One `Scalar` object: its eagerly computed `value` and the operation that
produced it (`Op.leaf` for `Scalar(value)` constructed directly). -/
structure SNode where
  value : ℝ
  op : Op

/-- The arena of all `Scalar` objects created so far; a node's index is its
Python object identity. -/
abbrev Graph := List SNode

/-- The `_ancestors` field of a node, as stored by `Scalar.__init__` via
`set(_ancestors)`: the operands of the producing operation with duplicates
collapsed (Python sets are keyed on object identity). -/
def ancList : Op → List Nat
  | .leaf => []
  | .add i j => if i = j then [i] else [i, j]
  | .mul i j => if i = j then [i] else [i, j]
  | .pow i _ => [i]
  | .tanh i => [i]
  | .relu i => [i]
  | .gelu i => [i]

/-- Ancestor set of the node at index `u` (empty for indices outside the
arena, which the Python code never produces). -/
def ancestorsOf (g : Graph) (u : Nat) : List Nat :=
  match g.get? u with
  | some n => ancList n.op
  | none => []

/-- The `value` field of the node at index `u` (0 for indices outside the
arena, which the Python code never produces). -/
def nodeValue (g : Graph) (u : Nat) : ℝ :=
  match g.get? u with
  | some n => n.value
  | none => 0

/-- Well-formedness of an arena: every ancestor of a node was created
before it.  This holds for every graph the operation constructors build,
and is the source's acyclicity invariant. -/
def Wf (g : Graph) : Prop :=
  ∀ u < g.length, ∀ v ∈ ancestorsOf g u, v < u

instance : DecidablePred Wf := fun g =>
  inferInstanceAs (Decidable (∀ u < g.length, ∀ v ∈ ancestorsOf g u, v < u))

/-- A gradient state: the `grad` field of every node in the arena. -/
abbrev GradMap := Nat → ℝ

/-- Assignment to one node's `grad` field. -/
def setGrad (m : GradMap) (i : Nat) (x : ℝ) : GradMap :=
  fun j => if j = i then x else m j

/-- The `+=` accumulation the backward closures perform on a `grad`
field. -/
def bumpGrad (m : GradMap) (i : Nat) (x : ℝ) : GradMap :=
  setGrad m i (m i + x)

@[simp] theorem setGrad_eval (m : GradMap) (i : Nat) (x : ℝ) (j : Nat) :
    setGrad m i x j = if j = i then x else m j := rfl

theorem bumpGrad_eval (m : GradMap) (i : Nat) (x : ℝ) (j : Nat) :
    bumpGrad m i x j = if j = i then m i + x else m j := rfl

/-- The fresh-`Scalar` gradient state: `self.grad = 0` in `__init__`. -/
def zeroGrad : GradMap := fun _ => 0

/-- The argument of the inner `tanh` in `Scalar.gelu`:
`math.sqrt(2.0 / math.pi) * (x + 0.044715 * x * x * x)`. -/
noncomputable def geluInner (x : ℝ) : ℝ :=
  Real.sqrt (2.0 / Real.pi) * (x + 0.044715 * x * x * x)

/-- The forward value computed by `Scalar.tanh`:
`(math.exp(2 * x) - 1) / (math.exp(2 * x) + 1)`. -/
noncomputable def tanhFwd (x : ℝ) : ℝ :=
  (Real.exp (2 * x) - 1) / (Real.exp (2 * x) + 1)

/-- The forward value computed by `Scalar.gelu`:
`0.5 * x * (1 + (math.exp(2 * inner) - 1) / (math.exp(2 * inner) + 1))`. -/
noncomputable def geluFwd (x : ℝ) : ℝ :=
  0.5 * x * (1 + (Real.exp (2 * geluInner x) - 1) / (Real.exp (2 * geluInner x) + 1))

/-- `sech_inner` in `Scalar.gelu._backward`:
`2.0 / (math.exp(inner) + math.exp(-inner))`. -/
noncomputable def sechInner (inner : ℝ) : ℝ :=
  2.0 / (Real.exp inner + Real.exp (-inner))

/-- The coefficient `Scalar.gelu._backward` multiplies `res.grad` by:
`0.5 * (1 + math.tanh(inner)) + 0.5 * x * sech_inner * sech_inner *
 math.sqrt(2.0 / math.pi) * (1 + 3 * 0.044715 * x * x)`. -/
noncomputable def geluBwdCoeff (x : ℝ) : ℝ :=
  0.5 * (1 + Real.tanh (geluInner x)) +
    0.5 * x * sechInner (geluInner x) * sechInner (geluInner x) *
      Real.sqrt (2.0 / Real.pi) * (1 + 3 * 0.044715 * x * x)

/-- The `_backward` closure installed for a result node at index `u`
produced by operation `op`, acting on the gradient state.  Each branch
transcribes the closure `engine.py` installs for the corresponding
operation; binary closures perform their two `+=` statements sequentially,
re-reading the result's `grad` exactly as the Python statements do (so
`add` on aliased operands accumulates twice into the same node). -/
noncomputable def opBackward (g : Graph) (u : Nat) (op : Op) (m : GradMap) : GradMap :=
  match op with
  | .leaf => m
  | .add i j =>
      let m1 := bumpGrad m i (m u)
      bumpGrad m1 j (m1 u)
  | .mul i j =>
      let m1 := bumpGrad m i (nodeValue g j * m u)
      bumpGrad m1 j (nodeValue g i * m1 u)
  | .pow i p =>
      bumpGrad m i (p * nodeValue g i ^ (p - 1) * m u)
  | .tanh i =>
      bumpGrad m i ((1 - nodeValue g u ^ 2) * m u)
  | .relu i =>
      bumpGrad m i ((if 0 < nodeValue g u then (1 : ℝ) else 0) * m u)
  | .gelu i =>
      bumpGrad m i (geluBwdCoeff (nodeValue g i) * m u)

/-- The `_backward` closure of the node at index `u` (a no-op for absent
indices, which the Python code never produces). -/
noncomputable def localBackward (g : Graph) (u : Nat) (m : GradMap) : GradMap :=
  match g.get? u with
  | none => m
  | some n => opBackward g u n.op m

/-- Intermediate state of the `dfs` helper inside `Scalar.backward`: the
`visited` set and the `toposort` list. -/
structure DfsState where
  visited : List Nat
  order : List Nat

/-- The recursive `dfs` of `Scalar.backward`, with an explicit fuel
parameter to express the recursion; on well-formed arenas any fuel above
the starting index suffices because ancestor indices strictly decrease. -/
def dfsAux (g : Graph) : Nat → Nat → DfsState → DfsState
  | 0, _, s => s
  | fuel + 1, u, s =>
    if u ∈ s.visited then s
    else
      let s2 := (ancestorsOf g u).foldl (fun t v => dfsAux g fuel v t)
        ⟨u :: s.visited, s.order⟩
      ⟨s2.visited, s2.order ++ [u]⟩

/-- The post-order list `toposort` that `Scalar.backward` records by calling
`dfs(self)` on empty state. -/
def toposort (g : Graph) (r : Nat) : List Nat :=
  (dfsAux g (r + 1) r ⟨[], []⟩).order

/-- `Scalar.backward`: seed `self.grad = 1`, then run every recorded node's
`_backward` in reverse post-order. -/
noncomputable def backward (g : Graph) (r : Nat) (m : GradMap) : GradMap :=
  (toposort g r).reverse.foldl (fun t u => localBackward g u t) (setGrad m r 1)

/-- Appending the freshly constructed result node, whose identity is the
next free index. -/
def mkNode (g : Graph) (v : ℝ) (op : Op) : Graph × Nat :=
  (g ++ [⟨v, op⟩], g.length)

/-- `Scalar(v)`: a fresh leaf node. -/
def leafNode (g : Graph) (v : ℝ) : Graph × Nat :=
  mkNode g v .leaf

/-- `Scalar.__add__` on two existing nodes. -/
def addNode (g : Graph) (i j : Nat) : Graph × Nat :=
  mkNode g (nodeValue g i + nodeValue g j) (.add i j)

/-- `Scalar.__mul__` on two existing nodes. -/
def mulNode (g : Graph) (i j : Nat) : Graph × Nat :=
  mkNode g (nodeValue g i * nodeValue g j) (.mul i j)

/-- `Scalar.__pow__` with numeric exponent `p` (`self.value ** power`). -/
noncomputable def powNode (g : Graph) (i : Nat) (p : ℝ) : Graph × Nat :=
  mkNode g (nodeValue g i ^ p) (.pow i p)

/-- `Scalar.tanh`. -/
noncomputable def tanhNode (g : Graph) (i : Nat) : Graph × Nat :=
  mkNode g (tanhFwd (nodeValue g i)) (.tanh i)

/-- `Scalar.relu` (`0 if self.value < 0 else self.value`). -/
noncomputable def reluNode (g : Graph) (i : Nat) : Graph × Nat :=
  mkNode g (if nodeValue g i < 0 then 0 else nodeValue g i) (.relu i)

/-- `Scalar.gelu`. -/
noncomputable def geluNode (g : Graph) (i : Nat) : Graph × Nat :=
  mkNode g (geluFwd (nodeValue g i)) (.gelu i)

/-- The body of `Scalar.__div__`: `return self * other ** -1`. -/
noncomputable def divNode (g : Graph) (i j : Nat) : Graph × Nat :=
  let gp := powNode g j (-1)
  mulNode gp.1 i gp.2

/-- `Scalar.__add__` with a plain-number right operand: the number is first
promoted to a constant leaf (`other = Scalar(other)`), then added. -/
def addNumNode (g : Graph) (i : Nat) (c : ℝ) : Graph × Nat :=
  let gc := leafNode g c
  addNode gc.1 i gc.2

/-- `Scalar.__radd__` for a plain-number left operand: `return self + other`. -/
def raddNumNode (g : Graph) (c : ℝ) (i : Nat) : Graph × Nat :=
  addNumNode g i c

/-- `Scalar.__mul__` with a plain-number right operand. -/
def mulNumNode (g : Graph) (i : Nat) (c : ℝ) : Graph × Nat :=
  let gc := leafNode g c
  mulNode gc.1 i gc.2

/-- `Scalar.__rmul__` for a plain-number left operand: `return self * other`. -/
def rmulNumNode (g : Graph) (c : ℝ) (i : Nat) : Graph × Nat :=
  mulNumNode g i c

/-- Reachability along the ancestor relation: the nodes `dfs` can reach
from a starting node. -/
inductive Reaches (g : Graph) : Nat → Nat → Prop where
  | refl (u : Nat) : Reaches g u u
  | step {u v w : Nat} : v ∈ ancestorsOf g u → Reaches g v w → Reaches g u w

theorem anc_lt {g : Graph} (hw : Wf g) {u v : Nat} (hv : v ∈ ancestorsOf g u) :
    v < u := by
  by_cases hu : u < g.length
  · exact hw u hu v hv
  · exfalso
    have h0 : g.get? u = none := List.get?_eq_none.mpr (Nat.le_of_not_lt hu)
    unfold ancestorsOf at hv
    rw [h0] at hv
    simp at hv

theorem Reaches.le {g : Graph} (hw : Wf g) {u v : Nat} (h : Reaches g u v) :
    v ≤ u := by
  induction h with
  | refl => exact Nat.le_refl _
  | step ha _ ih => exact Nat.le_trans ih (Nat.le_of_lt (anc_lt hw ha))

/-- The fold of `dfs` over a node's ancestor set. -/
def dfsList (g : Graph) (fuel : Nat) (l : List Nat) (s : DfsState) : DfsState :=
  l.foldl (fun t v => dfsAux g fuel v t) s

theorem dfsAux_zero (g : Graph) (u : Nat) (s : DfsState) : dfsAux g 0 u s = s := rfl

theorem dfsAux_succ (g : Graph) (fuel u : Nat) (s : DfsState) :
    dfsAux g (fuel + 1) u s =
      if u ∈ s.visited then s
      else
        ⟨(dfsList g fuel (ancestorsOf g u) ⟨u :: s.visited, s.order⟩).visited,
         (dfsList g fuel (ancestorsOf g u) ⟨u :: s.visited, s.order⟩).order ++ [u]⟩ := rfl

theorem dfsList_nil (g : Graph) (fuel : Nat) (s : DfsState) :
    dfsList g fuel [] s = s := rfl

theorem dfsList_cons (g : Graph) (fuel v : Nat) (l : List Nat) (s : DfsState) :
    dfsList g fuel (v :: l) s = dfsList g fuel l (dfsAux g fuel v s) := rfl

theorem dfsAux_visited_mono (g : Graph) :
    ∀ fuel u s x, x ∈ s.visited → x ∈ (dfsAux g fuel u s).visited := by
  intro fuel
  induction fuel with
  | zero => intro u s x hx; simpa [dfsAux_zero] using hx
  | succ fuel ih =>
    intro u s x hx
    rw [dfsAux_succ]
    by_cases hu : u ∈ s.visited
    · simpa [hu] using hx
    · simp only [hu, if_false]
      have hlist : ∀ (l : List Nat) (s' : DfsState), x ∈ s'.visited →
          x ∈ (dfsList g fuel l s').visited := by
        intro l
        induction l with
        | nil => intro s' h; simpa [dfsList_nil] using h
        | cons v vs ihl =>
          intro s' h
          rw [dfsList_cons]
          exact ihl _ (ih v s' x h)
      exact hlist _ _ (by simp [hx])

theorem dfsList_visited_mono (g : Graph) (fuel : Nat) (l : List Nat) (s : DfsState)
    (x : Nat) (hx : x ∈ s.visited) : x ∈ (dfsList g fuel l s).visited := by
  induction l generalizing s with
  | nil => simpa [dfsList_nil] using hx
  | cons v vs ihl =>
    rw [dfsList_cons]
    exact ihl _ (dfsAux_visited_mono g fuel v s x hx)

theorem dfsAux_visited_sound (g : Graph) :
    ∀ fuel u s x, x ∈ (dfsAux g fuel u s).visited →
      x ∈ s.visited ∨ Reaches g u x := by
  intro fuel
  induction fuel with
  | zero => intro u s x hx; exact Or.inl (by simpa [dfsAux_zero] using hx)
  | succ fuel ih =>
    intro u s x hx
    rw [dfsAux_succ] at hx
    by_cases hu : u ∈ s.visited
    · exact Or.inl (by simpa [hu] using hx)
    · simp only [hu, if_false] at hx
      have hlist : ∀ (l : List Nat) (s' : DfsState), x ∈ (dfsList g fuel l s').visited →
          x ∈ s'.visited ∨ ∃ v ∈ l, Reaches g v x := by
        intro l
        induction l with
        | nil => intro s' h; exact Or.inl (by simpa [dfsList_nil] using h)
        | cons v vs ihl =>
          intro s' h
          rw [dfsList_cons] at h
          rcases ihl _ h with h' | ⟨w, hwl, hwr⟩
          · rcases ih v s' x h' with h'' | hr
            · exact Or.inl h''
            · exact Or.inr ⟨v, List.mem_cons_self v vs, hr⟩
          · exact Or.inr ⟨w, List.mem_cons_of_mem v hwl, hwr⟩
      rcases hlist _ _ hx with h' | ⟨v, hvl, hvr⟩
      · rcases List.mem_cons.mp (by simpa using h') with h'' | h''
        · exact Or.inr (h'' ▸ Reaches.refl x)
        · exact Or.inl h''
      · exact Or.inr (Reaches.step hvl hvr)

/-- Invariant of the `dfs` traversal, relative to an initial visited set
`V0` (empty at the top-level call) and the set `P` of nodes currently on
the recursion stack: the visited set is exactly `V0`, the stack, and the
recorded post-order; the post-order has no duplicates, is disjoint from
`V0` and the stack, and every recorded node's ancestors were recorded
before it (or were initially visited). -/
structure DfsInv (g : Graph) (V0 P : List Nat) (s : DfsState) : Prop where
  mem_iff : ∀ v, v ∈ s.visited ↔ (v ∈ V0 ∨ v ∈ P ∨ v ∈ s.order)
  nodup : s.order.Nodup
  not_v0 : ∀ v ∈ s.order, v ∉ V0
  not_p : ∀ v ∈ s.order, v ∉ P
  pord : ∀ (k : Nat) (hk : k < s.order.length),
    ∀ v ∈ ancestorsOf g (s.order[k]), v ∈ s.order.take k ∨ v ∈ V0

theorem dfsAux_inv (g : Graph) (hw : Wf g) :
    ∀ fuel u s V0 P, u < fuel → (∀ p ∈ P, u < p) → DfsInv g V0 P s →
      DfsInv g V0 P (dfsAux g fuel u s) ∧ u ∈ (dfsAux g fuel u s).visited := by
  intro fuel
  induction fuel with
  | zero => intro u s V0 P hu; exact absurd hu (Nat.not_lt_zero u)
  | succ fuel ih =>
    intro u s V0 P hu hP hinv
    rw [dfsAux_succ]
    by_cases huv : u ∈ s.visited
    · rw [if_pos huv]
      exact ⟨hinv, huv⟩
    · simp only [huv, if_false]
      have hu_not_order : u ∉ s.order := fun h =>
        huv ((hinv.mem_iff u).mpr (Or.inr (Or.inr h)))
      have hu_not_v0 : u ∉ V0 := fun h => huv ((hinv.mem_iff u).mpr (Or.inl h))
      have hu_not_p : u ∉ P := fun h => Nat.lt_irrefl u (hP u h)
      have hinv1 : DfsInv g V0 (u :: P) ⟨u :: s.visited, s.order⟩ := by
        refine ⟨?_, hinv.nodup, hinv.not_v0, ?_, hinv.pord⟩
        · intro v
          simp only [List.mem_cons]
          rw [hinv.mem_iff v]
          tauto
        · intro v hv
          simp only [List.mem_cons]
          push_neg
          exact ⟨fun h => hu_not_order (h ▸ hv), hinv.not_p v hv⟩
      have hfold : ∀ (l : List Nat) (s' : DfsState),
          (∀ v ∈ l, v < fuel ∧ ∀ p ∈ u :: P, v < p) →
          DfsInv g V0 (u :: P) s' →
          DfsInv g V0 (u :: P) (dfsList g fuel l s') ∧
            ∀ v ∈ l, v ∈ (dfsList g fuel l s').visited := by
        intro l
        induction l with
        | nil =>
          intro s' _ hinv'
          exact ⟨by simpa [dfsList_nil] using hinv', by simp⟩
        | cons v vs ihl =>
          intro s' hl hinv'
          rw [dfsList_cons]
          have hv := hl v (List.mem_cons_self v vs)
          have h1 := ih v s' V0 (u :: P) hv.1 hv.2 hinv'
          have h2 := ihl _ (fun w hw' => hl w (List.mem_cons_of_mem v hw')) h1.1
          refine ⟨h2.1, ?_⟩
          intro w hwmem
          rcases List.mem_cons.mp hwmem with h | h
          · exact h ▸ dfsList_visited_mono g fuel vs _ v h1.2
          · exact h2.2 w h
      have hanc : ∀ v ∈ ancestorsOf g u, v < fuel ∧ ∀ p ∈ u :: P, v < p := by
        intro v hv
        have hvu : v < u := anc_lt hw hv
        refine ⟨Nat.lt_of_lt_of_le hvu (Nat.lt_succ_iff.mp hu), ?_⟩
        intro p hp
        rcases List.mem_cons.mp hp with h | h
        · exact h ▸ hvu
        · exact Nat.lt_trans hvu (hP p h)
      obtain ⟨hinv2, hsub⟩ := hfold _ _ hanc hinv1
      set s2 := dfsList g fuel (ancestorsOf g u) ⟨u :: s.visited, s.order⟩ with hs2
      have hu_not_order2 : u ∉ s2.order := fun h =>
        hinv2.not_p u h (List.mem_cons_self u P)
      have hanc_mem : ∀ v ∈ ancestorsOf g u, v ∈ s2.order ∨ v ∈ V0 := by
        intro v hv
        have hvvis : v ∈ s2.visited := hsub v hv
        rcases (hinv2.mem_iff v).mp hvvis with h | h | h
        · exact Or.inr h
        · exfalso
          have hvu : v < u := anc_lt hw hv
          rcases List.mem_cons.mp h with h' | h'
          · exact Nat.lt_irrefl u (h' ▸ hvu)
          · exact Nat.lt_irrefl u (Nat.lt_trans (hP v h') hvu)
        · exact Or.inl h
      constructor
      · refine ⟨?_, ?_, ?_, ?_, ?_⟩
        · intro v
          have := hinv2.mem_iff v
          simp only [List.mem_cons] at this
          simp only [List.mem_append, List.mem_singleton]
          rw [this]
          tauto
        · have : s2.order.Nodup := hinv2.nodup
          simp [List.nodup_append, this, hu_not_order2]
        · intro v hv
          rcases List.mem_append.mp hv with h | h
          · exact hinv2.not_v0 v h
          · rw [List.mem_singleton.mp h]; exact hu_not_v0
        · intro v hv
          rcases List.mem_append.mp hv with h | h
          · exact fun h' => hinv2.not_p v h (List.mem_cons_of_mem u h')
          · rw [List.mem_singleton.mp h]; exact hu_not_p
        · intro k hk v hv
          simp only [List.length_append, List.length_singleton] at hk
          by_cases hkl : k < s2.order.length
          · rw [List.getElem_append_left hkl] at hv
            rcases hinv2.pord k hkl v hv with h | h
            · left
              rw [List.take_append_of_le_length (Nat.le_of_lt hkl)]
              exact h
            · exact Or.inr h
          · have hkeq : k = s2.order.length := by omega
            subst hkeq
            simp only [List.getElem_concat_length] at hv
            rcases hanc_mem v hv with h | h
            · left
              rw [List.take_left]
              exact h
            · exact Or.inr h
      · exact dfsList_visited_mono g fuel _ _ u (by simp)

theorem toposort_nodup_mem_pord (g : Graph) (hw : Wf g) (r : Nat) :
    (toposort g r).Nodup ∧
      (∀ v, v ∈ toposort g r ↔ Reaches g r v) ∧
      (∀ (k : Nat) (hk : k < (toposort g r).length),
        ∀ v ∈ ancestorsOf g ((toposort g r)[k]), v ∈ (toposort g r).take k) := by
  have base : DfsInv g [] [] ⟨[], []⟩ := by
    refine ⟨?_, ?_, ?_, ?_, ?_⟩ <;> simp
  obtain ⟨hinv, hrvis⟩ :=
    dfsAux_inv g hw (r + 1) r ⟨[], []⟩ [] [] (Nat.lt_succ_self r) (by simp) base
  have hmem_vis : ∀ v, v ∈ (dfsAux g (r + 1) r ⟨[], []⟩).visited ↔ v ∈ toposort g r := by
    intro v
    rw [hinv.mem_iff v]
    simp [toposort]
  have hpord : ∀ (k : Nat) (hk : k < (toposort g r).length),
      ∀ v ∈ ancestorsOf g ((toposort g r)[k]), v ∈ (toposort g r).take k := by
    intro k hk v hv
    rcases hinv.pord k hk v hv with h | h
    · exact h
    · simp at h
  have hclosed : ∀ x ∈ toposort g r, ∀ v ∈ ancestorsOf g x, v ∈ toposort g r := by
    intro x hx v hv
    obtain ⟨k, hk, hkx⟩ := List.mem_iff_getElem.mp hx
    exact List.take_subset k _ (hpord k hk v (by rw [hkx]; exact hv))
  refine ⟨hinv.nodup, ?_, hpord⟩
  intro v
  constructor
  · intro hv
    rcases dfsAux_visited_sound g (r + 1) r ⟨[], []⟩ v ((hmem_vis v).mpr hv) with h | h
    · simp at h
    · exact h
  · intro hr
    have hmem : ∀ a b, Reaches g a b → a ∈ toposort g r → b ∈ toposort g r := by
      intro a b hab
      induction hab with
      | refl => exact id
      | step ha _ ih => exact fun h => ih (hclosed _ h _ ha)
    exact hmem r v hr ((hmem_vis r).mp hrvis)

/-- The raw operand references captured by an operation's backward closure
(without the set-deduplication applied to `_ancestors`). -/
def opnds : Op → List Nat
  | .leaf => []
  | .add i j => [i, j]
  | .mul i j => [i, j]
  | .pow i _ => [i]
  | .tanh i => [i]
  | .relu i => [i]
  | .gelu i => [i]

theorem mem_ancList_iff_mem_opnds (op : Op) (v : Nat) :
    v ∈ ancList op ↔ v ∈ opnds op := by
  cases op with
  | add i j => by_cases hij : i = j <;> simp [ancList, opnds, hij]
  | mul i j => by_cases hij : i = j <;> simp [ancList, opnds, hij]
  | _ => simp [ancList, opnds]

theorem opnd_lt {g : Graph} (hw : Wf g) {u : Nat} {n : SNode}
    (hget : g.get? u = some n) {v : Nat} (hv : v ∈ opnds n.op) : v < u := by
  apply anc_lt hw (v := v) (u := u)
  unfold ancestorsOf
  rw [hget]
  exact (mem_ancList_iff_mem_opnds n.op v).mpr hv

theorem localBackward_of_get {g : Graph} {u : Nat} {n : SNode}
    (hget : g.get? u = some n) (m : GradMap) :
    localBackward g u m = opBackward g u n.op m := by
  unfold localBackward
  rw [hget]

theorem localBackward_of_none {g : Graph} {u : Nat}
    (hget : g.get? u = none) (m : GradMap) :
    localBackward g u m = m := by
  unfold localBackward
  rw [hget]

theorem bumpGrad_apply_ne (m : GradMap) (i : Nat) (a : ℝ) {x : Nat}
    (hx : x ≠ i) : bumpGrad m i a x = m x := by
  simp [bumpGrad_eval, hx]

/-- A backward closure of node `u` never writes a gradient at an index at
or above `u`: its `+=` targets are the operands, which precede `u`. -/
theorem localBackward_apply_ge {g : Graph} (hw : Wf g) {u x : Nat}
    (hux : u ≤ x) (m : GradMap) : localBackward g u m x = m x := by
  cases hget : g.get? u with
  | none => rw [localBackward_of_none hget]
  | some n =>
    rw [localBackward_of_get hget]
    have hlt : ∀ v ∈ opnds n.op, v < u := fun v hv => opnd_lt hw hget hv
    cases hop : n.op with
    | leaf => rfl
    | add i j =>
      rw [hop] at hlt
      have hxi : x ≠ i := by have := hlt i (by simp [opnds]); omega
      have hxj : x ≠ j := by have := hlt j (by simp [opnds]); omega
      simp only [opBackward]
      rw [bumpGrad_apply_ne _ _ _ hxj, bumpGrad_apply_ne _ _ _ hxi]
    | mul i j =>
      rw [hop] at hlt
      have hxi : x ≠ i := by have := hlt i (by simp [opnds]); omega
      have hxj : x ≠ j := by have := hlt j (by simp [opnds]); omega
      simp only [opBackward]
      rw [bumpGrad_apply_ne _ _ _ hxj, bumpGrad_apply_ne _ _ _ hxi]
    | pow i p =>
      rw [hop] at hlt
      have hxi : x ≠ i := by have := hlt i (by simp [opnds]); omega
      simp only [opBackward]
      rw [bumpGrad_apply_ne _ _ _ hxi]
    | tanh i =>
      rw [hop] at hlt
      have hxi : x ≠ i := by have := hlt i (by simp [opnds]); omega
      simp only [opBackward]
      rw [bumpGrad_apply_ne _ _ _ hxi]
    | relu i =>
      rw [hop] at hlt
      have hxi : x ≠ i := by have := hlt i (by simp [opnds]); omega
      simp only [opBackward]
      rw [bumpGrad_apply_ne _ _ _ hxi]
    | gelu i =>
      rw [hop] at hlt
      have hxi : x ≠ i := by have := hlt i (by simp [opnds]); omega
      simp only [opBackward]
      rw [bumpGrad_apply_ne _ _ _ hxi]

/-- Two gradient states that agree strictly above `w` and differ by exactly
`c` at `w`.  Backward processing preserves this relation: gradient flow
only moves from a node to its (strictly smaller) ancestors, so a
difference at `w` can never be erased at `w`. -/
def DiffRel (w : Nat) (c : ℝ) (m1 m2 : GradMap) : Prop :=
  (∀ x, w < x → m1 x = m2 x) ∧ m1 w = m2 w + c

theorem DiffRel.bump {w : Nat} {c : ℝ} {m1 m2 : GradMap}
    (h : DiffRel w c m1 m2) (i : Nat) (a : ℝ) :
    DiffRel w c (bumpGrad m1 i a) (bumpGrad m2 i a) := by
  constructor
  · intro x hx
    rw [bumpGrad_eval, bumpGrad_eval]
    by_cases hxi : x = i
    · subst hxi
      simp [h.1 x hx]
    · simp [hxi, h.1 x hx]
  · rw [bumpGrad_eval, bumpGrad_eval]
    by_cases hwi : w = i
    · rw [if_pos hwi, if_pos hwi, ← hwi, h.2]
      ring
    · simp [hwi, h.2]

theorem localBackward_diff {g : Graph} (hw : Wf g) (u : Nat) {w : Nat}
    {c : ℝ} {m1 m2 : GradMap} (h : DiffRel w c m1 m2) :
    DiffRel w c (localBackward g u m1) (localBackward g u m2) := by
  by_cases huw : u ≤ w
  · constructor
    · intro x hx
      rw [localBackward_apply_ge hw (Nat.le_trans huw (Nat.le_of_lt hx)),
        localBackward_apply_ge hw (Nat.le_trans huw (Nat.le_of_lt hx))]
      exact h.1 x hx
    · rw [localBackward_apply_ge hw huw, localBackward_apply_ge hw huw]
      exact h.2
  · have hwu : w < u := Nat.lt_of_not_le huw
    have hequ : m1 u = m2 u := h.1 u hwu
    cases hget : g.get? u with
    | none => rw [localBackward_of_none hget, localBackward_of_none hget]; exact h
    | some n =>
      rw [localBackward_of_get hget, localBackward_of_get hget]
      have hlt : ∀ v ∈ opnds n.op, v < u := fun v hv => opnd_lt hw hget hv
      cases hop : n.op with
      | leaf => exact h
      | add i j =>
        rw [hop] at hlt
        have hiu : i ≠ u := by have := hlt i (by simp [opnds]); omega
        simp only [opBackward]
        rw [bumpGrad_apply_ne m1 i (m1 u) hiu.symm]
        rw [bumpGrad_apply_ne m2 i (m2 u) hiu.symm]
        rw [hequ]
        exact (h.bump i (m2 u)).bump j (m2 u)
      | mul i j =>
        rw [hop] at hlt
        have hiu : i ≠ u := by have := hlt i (by simp [opnds]); omega
        simp only [opBackward]
        rw [bumpGrad_apply_ne m1 i (nodeValue g j * m1 u) hiu.symm]
        rw [bumpGrad_apply_ne m2 i (nodeValue g j * m2 u) hiu.symm]
        rw [hequ]
        exact (h.bump i (nodeValue g j * m2 u)).bump j (nodeValue g i * m2 u)
      | pow i p =>
        simp only [opBackward]
        rw [hequ]
        exact h.bump i _
      | tanh i =>
        simp only [opBackward]
        rw [hequ]
        exact h.bump i _
      | relu i =>
        simp only [opBackward]
        rw [hequ]
        exact h.bump i _
      | gelu i =>
        simp only [opBackward]
        rw [hequ]
        exact h.bump i _

theorem foldl_localBackward_diff {g : Graph} (hw : Wf g) (l : List Nat)
    {w : Nat} {c : ℝ} :
    ∀ {m1 m2 : GradMap}, DiffRel w c m1 m2 →
      DiffRel w c (l.foldl (fun t u => localBackward g u t) m1)
        (l.foldl (fun t u => localBackward g u t) m2) := by
  induction l with
  | nil => intro m1 m2 h; exact h
  | cons u us ih => intro m1 m2 h; exact ih (localBackward_diff hw u h)

theorem foldl_localBackward_apply_of_le {g : Graph} (hw : Wf g)
    (l : List Nat) (r : Nat) (hl : ∀ u ∈ l, u ≤ r) :
    ∀ m : GradMap, (l.foldl (fun t u => localBackward g u t) m) r = m r := by
  induction l with
  | nil => intro m; rfl
  | cons u us ih =>
    intro m
    have h1 : us.foldl (fun t u => localBackward g u t) (localBackward g u m) r =
        localBackward g u m r := ih (fun v hv => hl v (List.mem_cons_of_mem u hv)) _
    rw [List.foldl_cons, h1,
      localBackward_apply_ge hw (hl u (List.mem_cons_self u us))]

theorem toposort_le {g : Graph} (hw : Wf g) {r u : Nat}
    (hu : u ∈ toposort g r) : u ≤ r :=
  Reaches.le hw (((toposort_nodup_mem_pord g hw r).2.1 u).mp hu)

/-- After `backward`, the root's `grad` is exactly the seed 1: every
processed node lies at or below the root, so no closure ever writes the
root's `grad` after the seed. -/
theorem backward_apply_root {g : Graph} (hw : Wf g) (r : Nat) (m : GradMap) :
    backward g r m r = 1 := by
  unfold backward
  rw [foldl_localBackward_apply_of_le hw _ r
    (fun u hu => toposort_le hw (List.mem_reverse.mp hu)) _]
  simp

/-- The initial `grad` of any non-root node flows additively through
`backward`: starting the pass with `c` more gradient at `w` ends it with
exactly `c` more gradient at `w`. -/
theorem backward_additive_init {g : Graph} (hw : Wf g) {r w : Nat}
    (hwr : w ≠ r) (m : GradMap) (c : ℝ) :
    backward g r (bumpGrad m w c) w = backward g r m w + c := by
  unfold backward
  have hd : DiffRel w c (setGrad (bumpGrad m w c) r 1) (setGrad m r 1) := by
    constructor
    · intro x hx
      by_cases hxr : x = r
      · simp [hxr]
      · have hxw : x ≠ w := by omega
        simp [hxr, bumpGrad_eval, hxw]
    · simp [hwr, bumpGrad_eval]
  exact (foldl_localBackward_diff hw _ hd).2

/-- `backward` overwrites (rather than accumulates into) the root's
initial `grad`: any initial root gradient is discarded by the seed. -/
theorem backward_root_init_irrelevant (g : Graph) (r : Nat) (m : GradMap)
    (c : ℝ) : backward g r (setGrad m r c) = backward g r m := by
  unfold backward
  congr 1
  funext x
  by_cases hxr : x = r <;> simp [hxr]

theorem nodeValue_append {g h : Graph} {i : Nat} (hi : i < g.length) :
    nodeValue (g ++ h) i = nodeValue g i := by
  unfold nodeValue
  rw [List.get?_append hi]

theorem nodeValue_appended (g : Graph) (n : SNode) :
    nodeValue (g ++ [n]) g.length = n.value := by
  unfold nodeValue
  rw [List.get?_append_right (Nat.le_refl _)]
  simp

theorem ancestorsOf_append {g h : Graph} {i : Nat} (hi : i < g.length) :
    ancestorsOf (g ++ h) i = ancestorsOf g i := by
  unfold ancestorsOf
  rw [List.get?_append hi]

theorem ancestorsOf_appended (g : Graph) (n : SNode) :
    ancestorsOf (g ++ [n]) g.length = ancList n.op := by
  unfold ancestorsOf
  rw [List.get?_append_right (Nat.le_refl _)]
  simp

/-- C1: for fresh nodes `a`, `b`, after `backward()` on `root = a + b` each
operand's grad has been incremented by `root.grad` (the seed 1, which is
also the root's final grad), and after `backward()` on `root = a * b`,
`a.grad` holds `b.value * root.grad` and `b.grad` holds
`a.value * root.grad` — the analytic partial derivatives of the combining
function at `a.value`, `b.value`.  In addition, at the level of the
installed closures, the `add` rule increments each distinct operand's grad
by exactly the result's grad, and the `mul` rule by the other operand's
value times the result's grad. -/
theorem add_mul_backward_partials (va vb : ℝ) (g : Graph) (u i j : Nat)
    (m : GradMap) (hij : i ≠ j) (hiu : i ≠ u) (hju : j ≠ u) :
    (backward (addNode [⟨va, Op.leaf⟩, ⟨vb, Op.leaf⟩] 0 1).1 2 zeroGrad 0 = 1 ∧
      backward (addNode [⟨va, Op.leaf⟩, ⟨vb, Op.leaf⟩] 0 1).1 2 zeroGrad 1 = 1 ∧
      backward (addNode [⟨va, Op.leaf⟩, ⟨vb, Op.leaf⟩] 0 1).1 2 zeroGrad 2 = 1) ∧
    (backward (mulNode [⟨va, Op.leaf⟩, ⟨vb, Op.leaf⟩] 0 1).1 2 zeroGrad 0 = vb ∧
      backward (mulNode [⟨va, Op.leaf⟩, ⟨vb, Op.leaf⟩] 0 1).1 2 zeroGrad 1 = va ∧
      backward (mulNode [⟨va, Op.leaf⟩, ⟨vb, Op.leaf⟩] 0 1).1 2 zeroGrad 2 = 1) ∧
    (opBackward g u (.add i j) m i = m i + m u ∧
      opBackward g u (.add i j) m j = m j + m u ∧
      opBackward g u (.mul i j) m i = m i + nodeValue g j * m u ∧
      opBackward g u (.mul i j) m j = m j + nodeValue g i * m u) := by
  refine ⟨⟨?_, ?_, ?_⟩, ⟨?_, ?_, ?_⟩, ⟨?_, ?_, ?_, ?_⟩⟩ <;>
    simp [backward, toposort, dfsAux, addNode, mulNode, mkNode, ancestorsOf, ancList,
      localBackward, opBackward, bumpGrad, bumpGrad_eval, nodeValue, zeroGrad, List.get?,
      hij, hij.symm, hiu, hiu.symm, hju, hju.symm]

theorem add_mul_backward_partials_witness :
    ((0 : Nat) ≠ 1 ∧ (0 : Nat) ≠ 2 ∧ (1 : Nat) ≠ 2) ∧
    ((backward (addNode [⟨(5 : ℝ), Op.leaf⟩, ⟨(7 : ℝ), Op.leaf⟩] 0 1).1 2 zeroGrad 0 = 1 ∧
      backward (addNode [⟨(5 : ℝ), Op.leaf⟩, ⟨(7 : ℝ), Op.leaf⟩] 0 1).1 2 zeroGrad 1 = 1 ∧
      backward (addNode [⟨(5 : ℝ), Op.leaf⟩, ⟨(7 : ℝ), Op.leaf⟩] 0 1).1 2 zeroGrad 2 = 1) ∧
    (backward (mulNode [⟨(5 : ℝ), Op.leaf⟩, ⟨(7 : ℝ), Op.leaf⟩] 0 1).1 2 zeroGrad 0 = 7 ∧
      backward (mulNode [⟨(5 : ℝ), Op.leaf⟩, ⟨(7 : ℝ), Op.leaf⟩] 0 1).1 2 zeroGrad 1 = 5 ∧
      backward (mulNode [⟨(5 : ℝ), Op.leaf⟩, ⟨(7 : ℝ), Op.leaf⟩] 0 1).1 2 zeroGrad 2 = 1) ∧
    (opBackward [] 2 (.add 0 1) zeroGrad 0 = zeroGrad 0 + zeroGrad 2 ∧
      opBackward [] 2 (.add 0 1) zeroGrad 1 = zeroGrad 1 + zeroGrad 2 ∧
      opBackward [] 2 (.mul 0 1) zeroGrad 0 = zeroGrad 0 + nodeValue [] 1 * zeroGrad 2 ∧
      opBackward [] 2 (.mul 0 1) zeroGrad 1 = zeroGrad 1 + nodeValue [] 0 * zeroGrad 2)) :=
  ⟨⟨by decide, by decide, by decide⟩,
    add_mul_backward_partials 5 7 [] 2 0 1 zeroGrad (by decide) (by decide) (by decide)⟩

/-- C4: with `x` a fresh node and `y = x + x`, the result's ancestor set
stores `x` only once, yet after `y.backward()` the grad of `x` is 2: the
`add` closure's two `+=` statements both accumulate into the same node. -/
theorem reuse_accumulates_both_contributions (vx : ℝ) :
    ancestorsOf (addNode [⟨vx, Op.leaf⟩] 0 0).1 1 = [0] ∧
    backward (addNode [⟨vx, Op.leaf⟩] 0 0).1 1 zeroGrad 0 = 2 := by
  constructor
  · rw [show (addNode [⟨vx, Op.leaf⟩] 0 0).1 =
      [⟨vx, Op.leaf⟩] ++ [⟨nodeValue [⟨vx, Op.leaf⟩] 0 + nodeValue [⟨vx, Op.leaf⟩] 0,
        Op.add 0 0⟩] from rfl]
    rw [show (1 : Nat) = [(⟨vx, Op.leaf⟩ : SNode)].length from rfl, ancestorsOf_appended]
    simp [ancList]
  · simp [backward, toposort, dfsAux, addNode, mkNode, ancestorsOf, ancList,
      localBackward, opBackward, bumpGrad, nodeValue, zeroGrad, List.get?]
    norm_num

/-- C6: `relu` applied to a node whose value is exactly 0 yields a node
with value 0, and its backward rule adds 0 to the operand's grad (the
contribution is `res.grad` only under `res.value > 0`, false at 0), so
the operand's grad is unchanged by the whole backward pass. -/
theorem relu_at_zero_boundary (m : GradMap) :
    nodeValue (reluNode [⟨0, Op.leaf⟩] 0).1 1 = 0 ∧
    backward (reluNode [⟨0, Op.leaf⟩] 0).1 1 m 0 = m 0 := by
  constructor
  · simp [reluNode, mkNode, nodeValue, List.get?]
  · simp [backward, toposort, dfsAux, reluNode, mkNode, ancestorsOf, ancList,
      localBackward, opBackward, bumpGrad, nodeValue, zeroGrad, List.get?]

/-- C8: numeric promotion is symmetric: `c + x` (via `__radd__`) builds
exactly the graph `x + c` builds (the number promoted to a fresh constant
leaf, then the node operation applied), so both have the same result
value, and `backward()` from either result produces identical grads
everywhere — in particular the same grad on `x`.  Likewise for `c * x`
and `x * c`. -/
theorem numeric_promotion_symmetric (g : Graph) (i : Nat) (c : ℝ) (m : GradMap) :
    raddNumNode g c i = addNumNode g i c ∧
    rmulNumNode g c i = mulNumNode g i c ∧
    nodeValue (raddNumNode g c i).1 (raddNumNode g c i).2 =
      nodeValue (addNumNode g i c).1 (addNumNode g i c).2 ∧
    backward (raddNumNode g c i).1 (raddNumNode g c i).2 m =
      backward (addNumNode g i c).1 (addNumNode g i c).2 m ∧
    nodeValue (rmulNumNode g c i).1 (rmulNumNode g c i).2 =
      nodeValue (mulNumNode g i c).1 (mulNumNode g i c).2 ∧
    backward (rmulNumNode g c i).1 (rmulNumNode g c i).2 m =
      backward (mulNumNode g i c).1 (mulNumNode g i c).2 m :=
  ⟨rfl, rfl, rfl, rfl, rfl, rfl⟩

/-- The diamond expression `d = (a*b) + (a*c)` over three fresh leaves,
with `a` shared by both products. -/
def diamondGraph (va vb vc : ℝ) : Graph × Nat :=
  let a := leafNode [] va
  let b := leafNode a.1 vb
  let c := leafNode b.1 vc
  let ab := mulNode c.1 a.2 b.2
  let ac := mulNode ab.1 a.2 c.2
  addNode ac.1 ab.2 ac.2

/-- C2: on every well-formed arena, `backward()`'s traversal records each
node reachable from the root exactly once (no duplicates, membership is
exactly reachability), in post-order (every recorded node's ancestors
appear strictly before it), and the backward pass invokes the recorded
closures in reverse post-order, so each node's rule runs only after all
of its dependents' rules; in particular for `d = (a*b) + (a*c)`, after
`d.backward()`, `a.grad = b.value + c.value`. -/
theorem backward_traversal_correct (g : Graph) (r : Nat) (m : GradMap)
    (hw : Wf g) :
    (toposort g r).Nodup ∧
    (∀ v, v ∈ toposort g r ↔ Reaches g r v) ∧
    (∀ pre u suf, toposort g r = pre ++ u :: suf → ∀ v ∈ ancestorsOf g u, v ∈ pre) ∧
    backward g r m =
      (toposort g r).reverse.foldl (fun t u => localBackward g u t) (setGrad m r 1) ∧
    (∀ va vb vc : ℝ,
      backward (diamondGraph va vb vc).1 (diamondGraph va vb vc).2 zeroGrad 0 = vb + vc) := by
  obtain ⟨hnodup, hmem, hpord⟩ := toposort_nodup_mem_pord g hw r
  refine ⟨hnodup, hmem, ?_, rfl, ?_⟩
  · intro pre u suf heq v hv
    rw [heq] at hpord
    have hk : pre.length < (pre ++ u :: suf).length := by simp
    have hgu : (pre ++ u :: suf)[pre.length] = u := by
      rw [List.getElem_append_right (Nat.le_refl _)]
      simp
    have h := hpord pre.length hk v (by rw [hgu]; exact hv)
    rwa [List.take_left] at h
  · intro va vb vc
    simp [diamondGraph, backward, toposort, dfsAux, leafNode, addNode, mulNode, mkNode,
      ancestorsOf, ancList, localBackward, opBackward, bumpGrad, nodeValue, zeroGrad,
      List.get?]
    ring

theorem backward_traversal_correct_witness :
    Wf (diamondGraph 1 2 3).1 ∧
    ((toposort (diamondGraph 1 2 3).1 5).Nodup ∧
    (∀ v, v ∈ toposort (diamondGraph 1 2 3).1 5 ↔ Reaches (diamondGraph 1 2 3).1 5 v) ∧
    (∀ pre u suf, toposort (diamondGraph 1 2 3).1 5 = pre ++ u :: suf →
      ∀ v ∈ ancestorsOf (diamondGraph 1 2 3).1 u, v ∈ pre) ∧
    backward (diamondGraph 1 2 3).1 5 zeroGrad =
      (toposort (diamondGraph 1 2 3).1 5).reverse.foldl
        (fun t u => localBackward (diamondGraph 1 2 3).1 u t) (setGrad zeroGrad 5 1) ∧
    (∀ va vb vc : ℝ,
      backward (diamondGraph va vb vc).1 (diamondGraph va vb vc).2 zeroGrad 0 = vb + vc)) :=
  ⟨by decide, backward_traversal_correct (diamondGraph 1 2 3).1 5 zeroGrad (by decide)⟩

/-- C7: `backward()` seeds the root's grad with exactly 1 (and nothing
later overwrites it, since gradient only flows to strictly earlier
nodes); the root's initial grad is discarded by that seed; and every
other node's initial grad is only accumulated into, never reset: starting
the pass with `c` extra gradient on a non-root node ends it with exactly
`c` extra gradient there. -/
theorem backward_seed_and_accumulate (g : Graph) (r w : Nat) (m : GradMap)
    (c : ℝ) (hw : Wf g) (hwr : w ≠ r) :
    backward g r m r = 1 ∧
    backward g r (bumpGrad m w c) w = backward g r m w + c ∧
    backward g r (setGrad m r c) = backward g r m :=
  ⟨backward_apply_root hw r m, backward_additive_init hw hwr m c,
    backward_root_init_irrelevant g r m c⟩

theorem backward_seed_and_accumulate_witness :
    (Wf (addNode [⟨(1 : ℝ), Op.leaf⟩, ⟨(2 : ℝ), Op.leaf⟩] 0 1).1 ∧ (0 : Nat) ≠ 2) ∧
    (backward (addNode [⟨(1 : ℝ), Op.leaf⟩, ⟨(2 : ℝ), Op.leaf⟩] 0 1).1 2 zeroGrad 2 = 1 ∧
    backward (addNode [⟨(1 : ℝ), Op.leaf⟩, ⟨(2 : ℝ), Op.leaf⟩] 0 1).1 2
        (bumpGrad zeroGrad 0 5) 0 =
      backward (addNode [⟨(1 : ℝ), Op.leaf⟩, ⟨(2 : ℝ), Op.leaf⟩] 0 1).1 2 zeroGrad 0 + 5 ∧
    backward (addNode [⟨(1 : ℝ), Op.leaf⟩, ⟨(2 : ℝ), Op.leaf⟩] 0 1).1 2
        (setGrad zeroGrad 2 5) =
      backward (addNode [⟨(1 : ℝ), Op.leaf⟩, ⟨(2 : ℝ), Op.leaf⟩] 0 1).1 2 zeroGrad) :=
  ⟨⟨by decide, by decide⟩,
    backward_seed_and_accumulate (addNode [⟨(1 : ℝ), Op.leaf⟩, ⟨(2 : ℝ), Op.leaf⟩] 0 1).1
      2 0 zeroGrad 5 (by decide) (by decide)⟩

theorem get?_appended (g : Graph) (n : SNode) :
    (g ++ [n]).get? g.length = some n := by
  rw [List.get?_append_right (Nat.le_refl _)]
  simp

theorem tanhFwd_eq_tanh (t : ℝ) : tanhFwd t = Real.tanh t := by
  rw [Real.tanh_eq_sinh_div_cosh, Real.sinh_eq, Real.cosh_eq]
  unfold tanhFwd
  have h1 : Real.exp (2 * t) = Real.exp t * Real.exp t := by rw [two_mul, Real.exp_add]
  have h2 : Real.exp t ≠ 0 := Real.exp_ne_zero t
  have h3 : Real.exp (-t) = (Real.exp t)⁻¹ := Real.exp_neg t
  have h4 : Real.exp t * Real.exp t + 1 ≠ 0 := by positivity
  rw [h1, h3]
  field_simp

theorem sechInner_eq (t : ℝ) : sechInner t = 1 / Real.cosh t := by
  rw [Real.cosh_eq]
  unfold sechInner
  have h4 : Real.exp t + Real.exp (-t) ≠ 0 := by positivity
  field_simp
  norm_num

/-- Hyperbolic secant, as the specification's `sech` (the claim's
`sech(inner)^2` factor). -/
noncomputable def sech (t : ℝ) : ℝ := 1 / Real.cosh t

/-- The tanh-approximation GELU value as the specification states it:
`0.5 * x * (1 + tanh(sqrt(2/pi) * (x + 0.044715 * x^3)))`. -/
noncomputable def geluValueSpec (x : ℝ) : ℝ :=
  0.5 * x * (1 + Real.tanh (Real.sqrt (2 / Real.pi) * (x + 0.044715 * x ^ 3)))

/-- The derivative of the tanh-approximation as the specification states
it, with `inner` the cached forward tanh argument:
`0.5*(1+tanh(inner)) + 0.5*x*sech(inner)^2*sqrt(2/pi)*(1+3*0.044715*x^2)`. -/
noncomputable def geluDerivSpec (x : ℝ) : ℝ :=
  0.5 * (1 + Real.tanh (geluInner x)) +
    0.5 * x * sech (geluInner x) ^ 2 * Real.sqrt (2 / Real.pi) *
      (1 + 3 * 0.044715 * x ^ 2)

theorem geluInner_eq (x : ℝ) :
    geluInner x = Real.sqrt (2 / Real.pi) * (x + 0.044715 * x ^ 3) := by
  unfold geluInner
  have h2 : (2.0 : ℝ) = 2 := by norm_num
  rw [h2]
  ring

theorem geluFwd_eq_spec (x : ℝ) : geluFwd x = geluValueSpec x := by
  have h : geluFwd x = 0.5 * x * (1 + tanhFwd (geluInner x)) := rfl
  rw [h, tanhFwd_eq_tanh, geluInner_eq, geluValueSpec]

theorem geluBwdCoeff_eq_spec (x : ℝ) : geluBwdCoeff x = geluDerivSpec x := by
  unfold geluBwdCoeff geluDerivSpec sech
  rw [sechInner_eq]
  have h2 : (2.0 : ℝ) = 2 := by norm_num
  rw [h2]
  ring

theorem geluNode_fst (g : Graph) (a : Nat) :
    (geluNode g a).1 = g ++ [⟨geluFwd (nodeValue g a), Op.gelu a⟩] := rfl

theorem geluNode_snd (g : Graph) (a : Nat) : (geluNode g a).2 = g.length := rfl

theorem opBackward_gelu (g : Graph) (u i : Nat) (m : GradMap) :
    opBackward g u (.gelu i) m = bumpGrad m i (geluBwdCoeff (nodeValue g i) * m u) := rfl

/-- C5: `gelu(a)` produces a node whose value is the tanh-approximation
GELU `0.5*x*(1+tanh(sqrt(2/pi)*(x+0.044715*x^3)))` at `x = a.value`, and
whose backward rule adds to `a.grad` exactly the derivative of that
approximation — `0.5*(1+tanh(inner)) +
0.5*x*sech(inner)^2*sqrt(2/pi)*(1+3*0.044715*x^2)` with `inner` the
cached forward tanh argument — multiplied by the result's grad. -/
theorem gelu_value_and_derivative (g : Graph) (a : Nat) (m : GradMap)
    (ha : a < g.length) :
    nodeValue (geluNode g a).1 (geluNode g a).2 = geluValueSpec (nodeValue g a) ∧
    localBackward (geluNode g a).1 (geluNode g a).2 m =
      bumpGrad m a (geluDerivSpec (nodeValue g a) * m (geluNode g a).2) := by
  constructor
  · rw [geluNode_fst, geluNode_snd, nodeValue_appended, geluFwd_eq_spec]
  · rw [geluNode_fst, geluNode_snd,
      localBackward_of_get (get?_appended g ⟨geluFwd (nodeValue g a), Op.gelu a⟩)]
    rw [show (⟨geluFwd (nodeValue g a), Op.gelu a⟩ : SNode).op = Op.gelu a from rfl]
    rw [opBackward_gelu, nodeValue_append ha, geluBwdCoeff_eq_spec]

set_option maxHeartbeats 1000000 in
theorem gelu_value_and_derivative_witness :
    0 < ([⟨(1 : ℝ), Op.leaf⟩] : Graph).length ∧
    (nodeValue (geluNode [⟨(1 : ℝ), Op.leaf⟩] 0).1 (geluNode [⟨(1 : ℝ), Op.leaf⟩] 0).2 =
        geluValueSpec (nodeValue [⟨(1 : ℝ), Op.leaf⟩] 0) ∧
      localBackward (geluNode [⟨(1 : ℝ), Op.leaf⟩] 0).1 (geluNode [⟨(1 : ℝ), Op.leaf⟩] 0).2
          zeroGrad =
        bumpGrad zeroGrad 0 (geluDerivSpec (nodeValue [⟨(1 : ℝ), Op.leaf⟩] 0) *
          zeroGrad (geluNode [⟨(1 : ℝ), Op.leaf⟩] 0).2)) :=
  ⟨by decide, gelu_value_and_derivative [⟨(1 : ℝ), Op.leaf⟩] 0 zeroGrad (by decide)⟩

/-- C3: the body of `Scalar.__div__` is exactly `multiply(a, power(b, -1))`;
on fresh operands it produces a node whose value is `a.value * b.value⁻¹`,
and running `backward()` from it leaves in `a.grad` and `b.grad` exactly
the contributions inherited from the `multiply` and `power` rules:
`a.grad = b.value⁻¹` and `b.grad = -(a.value * (b.value * b.value)⁻¹)`
(with `a.grad = (b**-1).value * root.grad` coming from the multiply rule
and `b.grad` from the power rule applied to the intermediate
`power(b, -1)` node, whose own grad is `a.value`).  Note: in Python 3 the
`/` operator never dispatches to `__div__`, so this code is unreachable
through `a / b` — see the claim's `code_bug` record. -/
theorem div_body_is_mul_pow_inverse (va vb : ℝ) (g : Graph) (i j : Nat) :
    divNode g i j = mulNode (powNode g j (-1)).1 i (powNode g j (-1)).2 ∧
    nodeValue (divNode [⟨va, Op.leaf⟩, ⟨vb, Op.leaf⟩] 0 1).1 3 = va * vb⁻¹ ∧
    backward (divNode [⟨va, Op.leaf⟩, ⟨vb, Op.leaf⟩] 0 1).1 3 zeroGrad 0 = vb⁻¹ ∧
    backward (divNode [⟨va, Op.leaf⟩, ⟨vb, Op.leaf⟩] 0 1).1 3 zeroGrad 2 = va ∧
    backward (divNode [⟨va, Op.leaf⟩, ⟨vb, Op.leaf⟩] 0 1).1 3 zeroGrad 1 =
      -(va * (vb * vb)⁻¹) := by
  refine ⟨rfl, ?_, ?_, ?_, ?_⟩ <;>
    simp [divNode, powNode, mulNode, mkNode, backward, toposort, dfsAux, ancestorsOf,
      ancList, localBackward, opBackward, bumpGrad, nodeValue, zeroGrad, List.get?,
      Real.rpow_neg_one]
  · rw [show (-1 - 1 : ℝ) = ((-2 : ℤ) : ℝ) by norm_num, Real.rpow_intCast]
    rw [show (-2 : ℤ) = -(2 : ℤ) by norm_num, zpow_neg, zpow_two]
    ring

/-- A `Neuron` from `nn.py`: its weight nodes and bias node (arena
indices of leaf parameters) and its activation kind.  The random
initialisation of the weight values is irrelevant here: a neuron is
modelled at an arbitrary parameter state. -/
structure Neuron where
  weights : List Nat
  bias : Nat
  activation : String

/-- The list comprehension `[wi * xi for wi, xi in zip(self.weights, x)]`:
one product node per zipped weight/input pair, created left to right. -/
def buildProducts (g : Graph) : List (Nat × Nat) → Graph × List Nat
  | [] => (g, [])
  | (w, x) :: rest =>
      let p := mulNode g w x
      let r := buildProducts p.1 rest
      (r.1, p.2 :: r.2)

/-- `sum(products, self.bias)`: a left fold of `__add__` starting from the
bias node. -/
def buildSum (g : Graph) (acc : Nat) : List Nat → Graph × Nat
  | [] => (g, acc)
  | p :: rest =>
      let s := addNode g acc p
      buildSum s.1 s.2 rest

/-- The pre-activation `y` of `Neuron.__call__`:
`sum([wi * xi for wi, xi in zip(self.weights, x)], self.bias)`. -/
def neuronPreact (g : Graph) (n : Neuron) (x : List Nat) : Graph × Nat :=
  let prods := buildProducts g (n.weights.zip x)
  buildSum prods.1 n.bias prods.2

/-- `Neuron.__call__`: the pre-activation followed by the `if`/`elif`
dispatch on the activation kind.  A Python function that falls through
every branch returns `None`, modelled as `Option.none`. -/
noncomputable def neuronCall (g : Graph) (n : Neuron) (x : List Nat) :
    Option (Graph × Nat) :=
  let y := neuronPreact g n x
  match n.activation with
  | "linear" => some y
  | "tanh" => some (tanhNode y.1 y.2)
  | "relu" => some (reluNode y.1 y.2)
  | "gelu" => some (geluNode y.1 y.2)
  | _ => none

/-- C9: calling a `Neuron` whose activation kind is none of `linear`,
`tanh`, `relu`, `gelu` yields no output: the dispatch falls through every
branch and the call returns nothing (Python's implicit `None`) instead of
a node, without raising. -/
theorem unrecognized_activation_yields_none (g : Graph) (n : Neuron)
    (x : List Nat)
    (h : n.activation ∉ (["linear", "tanh", "relu", "gelu"] : List String)) :
    neuronCall g n x = none := by
  unfold neuronCall
  simp only [List.mem_cons, List.not_mem_nil, or_false, not_or] at h
  split <;> simp_all

theorem unrecognized_activation_yields_none_witness :
    (("softmax" : String) ∉ (["linear", "tanh", "relu", "gelu"] : List String)) ∧
    neuronCall [] ⟨[], 0, "softmax"⟩ [] = none :=
  ⟨by decide, unrecognized_activation_yields_none [] ⟨[], 0, "softmax"⟩ [] (by decide)⟩

theorem zip_eq_zip_take_min (l1 : List Nat) : ∀ (l2 : List Nat),
    l1.zip l2 =
      (l1.take (min l1.length l2.length)).zip (l2.take (min l1.length l2.length)) := by
  induction l1 with
  | nil => intro l2; simp
  | cons a as ih =>
    intro l2
    cases l2 with
    | nil => simp
    | cons b bs =>
      simp only [List.zip_cons_cons, List.length_cons]
      rw [Nat.succ_min_succ, List.take_succ_cons, List.take_succ_cons, List.zip_cons_cons]
      exact congrArg _ (ih bs)

theorem buildProducts_spec :
    ∀ (pairs : List (Nat × Nat)) (g : Graph),
      (∀ p ∈ pairs, p.1 < g.length ∧ p.2 < g.length) →
      (∃ gl, (buildProducts g pairs).1 = g ++ gl) ∧
      (∀ q ∈ (buildProducts g pairs).2, q < (buildProducts g pairs).1.length) ∧
      (buildProducts g pairs).2.map (nodeValue (buildProducts g pairs).1) =
        pairs.map (fun p => nodeValue g p.1 * nodeValue g p.2) := by
  intro pairs
  induction pairs with
  | nil =>
    intro g _
    exact ⟨⟨[], by simp [buildProducts]⟩, by simp [buildProducts], by simp [buildProducts]⟩
  | cons p rest ih =>
    intro g hran
    obtain ⟨w, x⟩ := p
    have hw : w < g.length := (hran (w, x) (List.mem_cons_self _ _)).1
    have hx : x < g.length := (hran (w, x) (List.mem_cons_self _ _)).2
    have hstep : buildProducts g ((w, x) :: rest) =
        ((buildProducts (mulNode g w x).1 rest).1,
          g.length :: (buildProducts (mulNode g w x).1 rest).2) := rfl
    have hlen : (mulNode g w x).1.length = g.length + 1 := by
      simp [mulNode, mkNode]
    have hran' : ∀ q ∈ rest, q.1 < (mulNode g w x).1.length ∧
        q.2 < (mulNode g w x).1.length := by
      intro q hq
      have := hran q (List.mem_cons_of_mem _ hq)
      omega
    obtain ⟨⟨gl, hgl⟩, hrange, hmap⟩ := ih (mulNode g w x).1 hran'
    rw [hstep]
    refine ⟨⟨[⟨nodeValue g w * nodeValue g x, Op.mul w x⟩] ++ gl, ?_⟩, ?_, ?_⟩
    · rw [hgl]
      simp [mulNode, mkNode]
    · intro q hq
      rcases List.mem_cons.mp hq with h | h
      · subst h
        show g.length < (buildProducts (mulNode g w x).1 rest).1.length
        have : g.length < (mulNode g w x).1.length := by omega
        have hle : (mulNode g w x).1.length ≤ (buildProducts (mulNode g w x).1 rest).1.length := by
          rw [hgl]
          simp
        omega
      · exact hrange q h
    · rw [List.map_cons, hmap]
      have hhead : nodeValue (buildProducts (mulNode g w x).1 rest).1 g.length =
          nodeValue g w * nodeValue g x := by
        rw [hgl]
        have : g.length < (mulNode g w x).1.length := by omega
        rw [nodeValue_append this]
        show nodeValue (g ++ [⟨nodeValue g w * nodeValue g x, Op.mul w x⟩]) g.length = _
        rw [nodeValue_appended]
      rw [hhead, List.map_cons]
      congr 1
      apply List.map_congr_left
      intro q hq
      have hq1 : q.1 < g.length := (hran q (List.mem_cons_of_mem _ hq)).1
      have hq2 : q.2 < g.length := (hran q (List.mem_cons_of_mem _ hq)).2
      show nodeValue (g ++ [⟨nodeValue g w * nodeValue g x, Op.mul w x⟩]) q.1 *
          nodeValue (g ++ [⟨nodeValue g w * nodeValue g x, Op.mul w x⟩]) q.2 = _
      rw [nodeValue_append hq1, nodeValue_append hq2]

theorem buildSum_spec :
    ∀ (ps : List Nat) (g : Graph) (acc : Nat),
      acc < g.length → (∀ p ∈ ps, p < g.length) →
      (∃ gl, (buildSum g acc ps).1 = g ++ gl) ∧
      nodeValue (buildSum g acc ps).1 (buildSum g acc ps).2 =
        nodeValue g acc + (ps.map (nodeValue g)).sum := by
  intro ps
  induction ps with
  | nil =>
    intro g acc hacc _
    exact ⟨⟨[], by simp [buildSum]⟩, by simp [buildSum]⟩
  | cons p rest ih =>
    intro g acc hacc hps
    have hp : p < g.length := hps p (List.mem_cons_self _ _)
    have hstep : buildSum g acc (p :: rest) =
        buildSum (addNode g acc p).1 (addNode g acc p).2 rest := rfl
    have hlen : (addNode g acc p).1.length = g.length + 1 := by
      simp [addNode, mkNode]
    have hacc' : (addNode g acc p).2 < (addNode g acc p).1.length := by
      show g.length < _
      omega
    have hps' : ∀ q ∈ rest, q < (addNode g acc p).1.length := by
      intro q hq
      have := hps q (List.mem_cons_of_mem _ hq)
      omega
    obtain ⟨⟨gl, hgl⟩, hval⟩ := ih (addNode g acc p).1 (addNode g acc p).2 hacc' hps'
    rw [hstep]
    refine ⟨⟨[⟨nodeValue g acc + nodeValue g p, Op.add acc p⟩] ++ gl, ?_⟩, ?_⟩
    · rw [hgl]
      simp [addNode, mkNode]
    · rw [hval]
      have hmid : nodeValue (addNode g acc p).1 (addNode g acc p).2 =
          nodeValue g acc + nodeValue g p := by
        show nodeValue (g ++ [⟨nodeValue g acc + nodeValue g p, Op.add acc p⟩]) g.length = _
        rw [nodeValue_appended]
      rw [hmid]
      have hrest : rest.map (nodeValue (addNode g acc p).1) = rest.map (nodeValue g) := by
        apply List.map_congr_left
        intro q hq
        show nodeValue (g ++ [⟨nodeValue g acc + nodeValue g p, Op.add acc p⟩]) q = _
        rw [nodeValue_append (hps q (List.mem_cons_of_mem _ hq))]
      rw [hrest, List.map_cons, List.sum_cons]
      ring

/-- C10: evaluating a neuron on an input list of any length never fails:
`zip` silently truncates, so the pre-activation uses exactly the first
`min(len(weights), len(input))` weight/input product pairs plus the bias,
ignoring surplus weights or inputs, and a recognized activation still
returns a node. -/
theorem mismatched_arity_truncates (g : Graph) (n : Neuron) (x : List Nat)
    (hw : ∀ w ∈ n.weights, w < g.length) (hx : ∀ i ∈ x, i < g.length)
    (hb : n.bias < g.length) :
    (n.activation = "linear" → neuronCall g n x = some (neuronPreact g n x)) ∧
    (n.weights.zip x).length = min n.weights.length x.length ∧
    n.weights.zip x =
      (n.weights.take (min n.weights.length x.length)).zip
        (x.take (min n.weights.length x.length)) ∧
    nodeValue (neuronPreact g n x).1 (neuronPreact g n x).2 =
      nodeValue g n.bias +
        ((n.weights.zip x).map (fun p => nodeValue g p.1 * nodeValue g p.2)).sum := by
  refine ⟨?_, List.length_zip _ _, zip_eq_zip_take_min _ _, ?_⟩
  · intro hact
    simp only [neuronCall, hact]
  · have hpr : ∀ p ∈ n.weights.zip x, p.1 < g.length ∧ p.2 < g.length := by
      intro p hp
      obtain ⟨h1, h2⟩ := List.of_mem_zip hp
      exact ⟨hw _ h1, hx _ h2⟩
    obtain ⟨⟨gl1, hgl1⟩, hrange, hmap⟩ := buildProducts_spec (n.weights.zip x) g hpr
    have hb' : n.bias < (buildProducts g (n.weights.zip x)).1.length := by
      rw [hgl1]
      simp only [List.length_append]
      omega
    obtain ⟨⟨gl2, hgl2⟩, hval⟩ :=
      buildSum_spec (buildProducts g (n.weights.zip x)).2
        (buildProducts g (n.weights.zip x)).1 n.bias hb' hrange
    show nodeValue (buildSum (buildProducts g (n.weights.zip x)).1 n.bias
        (buildProducts g (n.weights.zip x)).2).1
      (buildSum (buildProducts g (n.weights.zip x)).1 n.bias
        (buildProducts g (n.weights.zip x)).2).2 = _
    rw [hval, hmap]
    congr 1
    rw [hgl1]
    exact nodeValue_append hb

theorem mismatched_arity_truncates_witness :
    ((∀ w ∈ (⟨[0, 1], 2, "linear"⟩ : Neuron).weights,
        w < ([⟨(3 : ℝ), Op.leaf⟩, ⟨(4 : ℝ), Op.leaf⟩, ⟨(0 : ℝ), Op.leaf⟩] : Graph).length) ∧
      (∀ i ∈ [1], i < ([⟨(3 : ℝ), Op.leaf⟩, ⟨(4 : ℝ), Op.leaf⟩, ⟨(0 : ℝ), Op.leaf⟩] : Graph).length) ∧
      (⟨[0, 1], 2, "linear"⟩ : Neuron).bias <
        ([⟨(3 : ℝ), Op.leaf⟩, ⟨(4 : ℝ), Op.leaf⟩, ⟨(0 : ℝ), Op.leaf⟩] : Graph).length) ∧
    (((⟨[0, 1], 2, "linear"⟩ : Neuron).activation = "linear" →
      neuronCall [⟨(3 : ℝ), Op.leaf⟩, ⟨(4 : ℝ), Op.leaf⟩, ⟨(0 : ℝ), Op.leaf⟩]
          ⟨[0, 1], 2, "linear"⟩ [1] =
        some (neuronPreact [⟨(3 : ℝ), Op.leaf⟩, ⟨(4 : ℝ), Op.leaf⟩, ⟨(0 : ℝ), Op.leaf⟩]
          ⟨[0, 1], 2, "linear"⟩ [1])) ∧
    ((⟨[0, 1], 2, "linear"⟩ : Neuron).weights.zip [1]).length =
      min (⟨[0, 1], 2, "linear"⟩ : Neuron).weights.length ([1] : List Nat).length ∧
    (⟨[0, 1], 2, "linear"⟩ : Neuron).weights.zip [1] =
      ((⟨[0, 1], 2, "linear"⟩ : Neuron).weights.take
          (min (⟨[0, 1], 2, "linear"⟩ : Neuron).weights.length ([1] : List Nat).length)).zip
        (([1] : List Nat).take
          (min (⟨[0, 1], 2, "linear"⟩ : Neuron).weights.length ([1] : List Nat).length)) ∧
    nodeValue (neuronPreact [⟨(3 : ℝ), Op.leaf⟩, ⟨(4 : ℝ), Op.leaf⟩, ⟨(0 : ℝ), Op.leaf⟩]
        ⟨[0, 1], 2, "linear"⟩ [1]).1
      (neuronPreact [⟨(3 : ℝ), Op.leaf⟩, ⟨(4 : ℝ), Op.leaf⟩, ⟨(0 : ℝ), Op.leaf⟩]
        ⟨[0, 1], 2, "linear"⟩ [1]).2 =
      nodeValue [⟨(3 : ℝ), Op.leaf⟩, ⟨(4 : ℝ), Op.leaf⟩, ⟨(0 : ℝ), Op.leaf⟩]
          (⟨[0, 1], 2, "linear"⟩ : Neuron).bias +
        (((⟨[0, 1], 2, "linear"⟩ : Neuron).weights.zip [1]).map
          (fun p => nodeValue [⟨(3 : ℝ), Op.leaf⟩, ⟨(4 : ℝ), Op.leaf⟩, ⟨(0 : ℝ), Op.leaf⟩] p.1 *
            nodeValue [⟨(3 : ℝ), Op.leaf⟩, ⟨(4 : ℝ), Op.leaf⟩, ⟨(0 : ℝ), Op.leaf⟩] p.2)).sum) :=
  ⟨⟨by decide, by decide, by decide⟩,
    mismatched_arity_truncates [⟨(3 : ℝ), Op.leaf⟩, ⟨(4 : ℝ), Op.leaf⟩, ⟨(0 : ℝ), Op.leaf⟩]
      ⟨[0, 1], 2, "linear"⟩ [1] (by decide) (by decide) (by decide)⟩
